import Mathlib

/-!
# Verification of the AI-news pipeline (fetch / analyze / visualize)

Shallow embedding of the three Python modules of the repository:

* `fetch_ai_research.py` — RSS normalizer (`strip_html`, `format_dt`,
  `fetch_rss_source`, `fetch_all_sources`);
* `analyze_ai_research.py` — streaming analysis client (`analyze_item`,
  `save_report`);
* `visualize.py` — dashboard aggregator (`build_summary`,
  `load_analysis_content`, `enrich_items_with_analysis`).

Strings are processed at the level of `List Char` (Python indexes and
slices strings by code point, as `List Char` does).  Python whitespace
and `str.isalnum` are modelled by `Char.isWhitespace` / `Char.isAlphanum`
(the ASCII fragment, which covers every concrete input appearing below).
Network and filesystem effects are passed in explicitly: the RSS fetch
becomes a `Source → Except String (List Item)` argument, the report
store a `String → Option String` map from file path to file text, and
console output is returned as data.
-/

namespace AInews

/-! ## `analyze_ai_research.py` -/

/-- One streamed chunk's `delta`, as read by `analyze_item` (lines 45-60):
the code probes the optional attributes `reasoning_content` and `content`
with `hasattr` and then tests their truthiness, so each is modelled as an
`Option String`, with `none` for a missing attribute. -/
structure Delta where
  reasoning_content : Option String
  content : Option String

/-- Python truthiness of an optional string attribute:
`hasattr(delta, f) and delta.f` is true exactly when the attribute is
present and non-empty. -/
def truthy : Option String → Bool
  | none => false
  | some s => !(s == "")

/-- The loop state of `analyze_item`: the `is_answering` flag, the
accumulated `final_output` fragments, and (as data, standing for the
console side channel) the reasoning fragments actually printed. -/
structure AState where
  is_answering : Bool
  final_output : List String
  reasoning_log : List String

/-- One iteration of the `for chunk in completion` loop of `analyze_item`
(lines 45-60): a truthy `reasoning_content` is surfaced only while
`is_answering` is false; a truthy `content` flips `is_answering` and is
appended to `final_output`. -/
def analyze_step (st : AState) (d : Delta) : AState :=
  let st1 :=
    if truthy d.reasoning_content && !st.is_answering then
      { st with reasoning_log := st.reasoning_log ++ [d.reasoning_content.getD ""] }
    else st
  if truthy d.content then
    { st1 with is_answering := true, final_output := st1.final_output ++ [d.content.getD ""] }
  else st1

/-- Python's `"".join(fragments)`. -/
def concatStrings (l : List String) : String := l.foldr (· ++ ·) ""

/-- Model of `analyze_item` (lines 42-64), with the stream passed in as data.
Returns the value of `"".join(final_output)` together with the reasoning
text that was printed to the console. -/
def analyze_item (chunks : List Delta) : String × String :=
  let st := chunks.foldl analyze_step ⟨false, [], []⟩
  (concatStrings st.final_output, concatStrings st.reasoning_log)

/-- A pure stream fragment, as in the spec's synthetic streams: either a
reasoning fragment or a final-answer (content) fragment. -/
inductive Frag where
  | reasoning (s : String)
  | final (s : String)

/-- A pure fragment as a chunk delta carrying exactly one attribute. -/
def Frag.toDelta : Frag → Delta
  | .reasoning s => ⟨some s, none⟩
  | .final s => ⟨none, some s⟩

/-- A fragment carrying a non-empty final answer (the kind that flips the
client into the answering state). -/
def isNonemptyFinal : Frag → Bool
  | .final s => !(s == "")
  | .reasoning _ => false

/-- The content payloads of a fragment stream, in arrival order. -/
def contentFragments : List Frag → List String :=
  List.filterMap fun f => match f with
    | .final s => some s
    | .reasoning _ => none

/-- The reasoning payloads of a fragment stream, in arrival order. -/
def reasoningFragments : List Frag → List String :=
  List.filterMap fun f => match f with
    | .reasoning s => some s
    | .final _ => none

/-- The reasoning fragments arriving before the first non-empty
final-answer fragment: exactly those the protocol surfaces. -/
def surfacedFragments (frags : List Frag) : List String :=
  reasoningFragments (frags.takeWhile fun f => !isNonemptyFinal f)

/-- Constant `OUTPUT_DIR` (line 10 of `analyze_ai_research.py`). -/
def OUTPUT_DIR : String := "analysis_reports"

/-- ASCII model of Python's `str.isalnum` on one character. -/
def pyIsAlnum (c : Char) : Bool := c.isAlphanum

/-- The character filter of `save_report` line 109:
`c.isalnum() or c in (" ", "_", "-")`. -/
def safeChar (c : Char) : Bool := pyIsAlnum c || c == ' ' || c == '_' || c == '-'

/-- Python's `str.strip()`: drop leading and trailing whitespace. -/
def pyStrip (l : List Char) : List Char :=
  ((l.dropWhile Char.isWhitespace).reverse.dropWhile Char.isWhitespace).reverse

/-- Python `str.strip()` on a `String`. -/
def pyStripStr (s : String) : String := String.mk (pyStrip s.data)

/-- The file path `save_report` writes to (lines 109-110):
`OUTPUT_DIR/safe_title[:60].md` where `safe_title` keeps only
alphanumeric, space, underscore and hyphen characters and is stripped. -/
def save_report_path (title : String) : String :=
  OUTPUT_DIR ++ "/" ++ String.mk ((pyStrip (title.data.filter safeChar)).take 60) ++ ".md"

/-! ## `fetch_ai_research.py` -/

/-- After a `'>'`-terminator scan inside the regex `<[^>]+>`: consume
characters up to and including the first `'>'`, returning the remainder;
`none` when no `'>'` occurs. -/
def skipToClose : List Char → Option (List Char)
  | [] => none
  | c :: rest => if c = '>' then some rest else skipToClose rest

/-- Given the characters following a `'<'`, match `[^>]+>` (one or more
non-`'>'` characters, then `'>'`), returning the remainder after the
`'>'`; `none` when the regex cannot match at this `'<'`. -/
def matchTagRest : List Char → Option (List Char)
  | [] => none
  | c :: rest => if c = '>' then none else skipToClose rest

/-- Left-to-right scan of `re.sub(r"<[^>]+>", " ", text)` (line 78):
at each `'<'` try to match a tag and replace the whole match by one
space, otherwise emit the character and move on.  The fuel argument is
an upper bound on the number of remaining characters (each step consumes
at least one character and one unit of fuel), making the scan
structurally recursive. -/
def subTags : Nat → List Char → List Char
  | _, [] => []
  | 0, l => l
  | fuel + 1, c :: rest =>
    if c = '<' then
      match matchTagRest rest with
      | some rem => ' ' :: subTags fuel rem
      | none => c :: subTags fuel rest
    else c :: subTags fuel rest

/-- The substitution `re.sub(r"<[^>]+>", " ", text)`. -/
def stripTags (l : List Char) : List Char := subTags l.length l

/-- The substitution `re.sub(r"\s+", " ", text)` (line 80): collapse each maximal
whitespace run to a single space.  The flag records whether the previous
character belonged to a whitespace run. -/
def collapseWs : Bool → List Char → List Char
  | _, [] => []
  | prevWs, c :: rest =>
    if c.isWhitespace then
      if prevWs then collapseWs true rest
      else ' ' :: collapseWs true rest
    else c :: collapseWs false rest

/-- Model of `strip_html` (lines 73-81): empty text is returned unchanged,
otherwise drop tag-shaped substrings, collapse whitespace, and strip. -/
def strip_html (s : String) : String :=
  if s = "" then ""
  else String.mk (pyStrip (collapseWs false (stripTags s.data)))

/-- No position of the text matches the tag regex `<[^>]+>`: every `'<'`
is either immediately followed by `'>'` or not followed by any `'>'` at
all.  Texts with this property are fixed points of the tag scan. -/
def tagFree : List Char → Bool
  | [] => true
  | c :: rest => (if c = '<' then (matchTagRest rest).isNone else true) && tagFree rest

/-- Whether the text starts with a whitespace character. -/
def headWs : List Char → Bool
  | [] => false
  | c :: _ => c.isWhitespace

/-- Whitespace-normal text: every whitespace character is a single
space not followed by further whitespace.  Texts with this property are
fixed points of the whitespace collapse. -/
def wsNormal : List Char → Bool
  | [] => true
  | c :: rest => (!c.isWhitespace || (c == ' ' && !headWs rest)) && wsNormal rest

/-- The first six fields of a `feedparser` `struct_time` value, the part
`format_dt` consumes via `dt_struct[:6]`. -/
structure TimeStruct where
  year : Int
  month : Int
  day : Int
  hour : Int
  minute : Int
  second : Int

/-- Gregorian leap year, as used by `datetime`'s range check. -/
def isLeap (y : Int) : Bool := y % 4 == 0 && (!(y % 100 == 0) || y % 400 == 0)

/-- Number of days of a month, as used by `datetime`'s range check. -/
def daysInMonth (y m : Int) : Int :=
  if m == 2 then (if isLeap y then 29 else 28)
  else if m == 4 || m == 6 || m == 9 || m == 11 then 30
  else 31

/-- The argument check of `datetime(year, month, day, hour, minute,
second)`: the constructor raises exactly when one of these bounds fails
(`MINYEAR = 1`, `MAXYEAR = 9999`). -/
def validDatetime (t : TimeStruct) : Bool :=
  1 ≤ t.year && t.year ≤ 9999 &&
  1 ≤ t.month && t.month ≤ 12 &&
  1 ≤ t.day && t.day ≤ daysInMonth t.year t.month &&
  0 ≤ t.hour && t.hour ≤ 23 &&
  0 ≤ t.minute && t.minute ≤ 59 &&
  0 ≤ t.second && t.second ≤ 59

/-- Zero-padded decimal rendering of width `w`. -/
def padNum (w : Nat) (n : Nat) : String :=
  let s := toString n
  String.mk (List.replicate (w - s.length) '0') ++ s

/-- Rendering `datetime(*dt_struct[:6], tzinfo=timezone.utc).isoformat()`:
`YYYY-MM-DDTHH:MM:SS+00:00`. -/
def isoUTC (t : TimeStruct) : String :=
  padNum 4 t.year.toNat ++ "-" ++ padNum 2 t.month.toNat ++ "-" ++ padNum 2 t.day.toNat ++
  "T" ++ padNum 2 t.hour.toNat ++ ":" ++ padNum 2 t.minute.toNat ++ ":" ++
  padNum 2 t.second.toNat ++ "+00:00"

/-- Model of `format_dt` (lines 84-92): `None` (falsy) input gives `""`; a struct
the `datetime` constructor rejects is caught by the `except` and gives
`""`; otherwise the ISO-8601 UTC rendering. -/
def format_dt : Option TimeStruct → String
  | none => ""
  | some t => if validDatetime t then isoUTC t else ""

/-- A feed entry as probed by `fetch_rss_source` (lines 121-131): every
field is read with `entry.get`, so each is an `Option`. -/
structure AEntry where
  title : Option String
  link : Option String
  published_parsed : Option TimeStruct
  updated_parsed : Option TimeStruct
  summary : Option String
  description : Option String

/-- A source descriptor of the `SOURCES` table (lines 24-68); `category`
and `max_items` are read with `.get` and a default, so they are
`Option`s. -/
structure Source where
  id : String
  name : String
  type : String
  url : String
  category : Option String
  max_items : Option Nat

/-- The part of a parsed feed that `fetch_rss_source` consumes. -/
structure Feed where
  bozo : Bool
  entries : List AEntry

/-- One normalized record, the item dictionary of lines 135-143. -/
structure Item where
  source_id : String
  source_name : String
  category : String
  title : String
  link : String
  published : String
  summary : String
deriving DecidableEq

/-- Python's `a or b` on optional strings: an absent or *empty* (falsy)
first operand falls through to the second. -/
def orFalsy (a b : Option String) : Option String :=
  match a with
  | some s => if s == "" then b else some s
  | none => b

/-- Python's `a or b` on optional time structs: a present `struct_time`
is always truthy. -/
def pyOr (a b : Option TimeStruct) : Option TimeStruct :=
  match a with
  | some t => some t
  | none => b

/-- The body of the entry loop of `fetch_rss_source` (lines 121-144):
build one normalized item from one feed entry. -/
def normalize_entry (source : Source) (entry : AEntry) : Item :=
  let title := pyStripStr (entry.title.getD "")
  let link := pyStripStr (entry.link.getD "")
  let published := format_dt (pyOr entry.published_parsed entry.updated_parsed)
  let raw_summary := (orFalsy entry.summary entry.description).getD ""
  let cleaned := strip_html raw_summary
  let summary :=
    if cleaned.length > 400 then String.mk (cleaned.data.take 400) ++ "..." else cleaned
  { source_id := source.id
    source_name := source.name
    category := source.category.getD "unknown"
    title := title
    link := link
    published := published
    summary := summary }

/-- Model of `fetch_rss_source` (lines 95-147) with the parsed feed passed in:
take the first `max_items` entries (`.get("max_items", 5)`) of the feed's
native order and normalize each. -/
def fetch_rss_source (source : Source) (feed : Feed) : List Item :=
  (feed.entries.take (source.max_items.getD 5)).map (normalize_entry source)

/-- Model of `fetch_all_sources` (lines 150-163) with the per-source retrieval
passed in as a fallible function (an exception raised by the retrieval is
an `Except.error`).  Returns `all_items` together with the list of
printed error / warning lines. -/
def fetch_all_sources (fetch : Source → Except String (List Item))
    (sources : List Source) : List Item × List String :=
  sources.foldl
    (fun acc src =>
      if src.type = "rss" then
        match fetch src with
        | .ok items => (acc.1 ++ items, acc.2)
        | .error e => (acc.1, acc.2 ++ ["[x] Error fetching " ++ src.id ++ ": " ++ e])
      else
        (acc.1, acc.2 ++ ["[!] Unsupported source type: " ++ src.type ++ " for " ++ src.id]))
    ([], [])

/-- The items contributed by one source's retrieval outcome: its records
on success, nothing on failure. -/
def okItems : Except String (List Item) → List Item
  | .ok items => items
  | .error _ => []

/-- Whether one source's retrieval outcome is a raised exception. -/
def isErr : Except String (List Item) → Bool
  | .ok _ => false
  | .error _ => true

/-! ## `visualize.py` -/

/-- Constant `ANALYSIS_DIR` (line 11 of `visualize.py`). -/
def ANALYSIS_DIR : String := "analysis_reports"

/-- Increment the count of `k` in an insertion-ordered association list,
appending `(k, 1)` at the end when `k` is new — the update behaviour of
`collections.Counter` under Python's insertion-ordered dicts. -/
def bump (k : String) : List (String × Nat) → List (String × Nat)
  | [] => [(k, 1)]
  | (k', n) :: rest => if k' = k then (k', n + 1) :: rest else (k', n) :: bump k rest

/-- Model of `Counter(keys)` as an insertion-ordered association list (first
occurrence order), then `dict(...)` which preserves that order. -/
def counterList (keys : List String) : List (String × Nat) :=
  keys.foldl (fun acc k => bump k acc) []

/-- The summary dictionary of `build_summary` (lines 30-36). -/
structure Summary where
  count : Nat
  sources : List (String × Nat)

/-- Model of `build_summary` (lines 30-36): total count plus the per-source
counter over the records' `source_name`s. -/
def build_summary (items : List Item) : Summary :=
  { count := items.length
    sources := counterList (items.map (·.source_name)) }

/-- The keys of the items of a claimed mapping, in first-occurrence
order over `keys`, having already seen `seen` — the spec's reading of
"insertion-ordered mapping from each distinct source_name". -/
def firstOcc (seen : List String) : List String → List String
  | [] => []
  | k :: rest => if k ∈ seen then firstOcc seen rest else k :: firstOcc (k :: seen) rest

/-- Count looked up in an association list, `0` when absent. -/
def lookupD (assoc : List (String × Nat)) (k : String) : Nat :=
  ((assoc.lookup k).getD 0)

/-- The file path `load_analysis_content` reads (lines 41-42):
`ANALYSIS_DIR/title.replace("/", "_").md`. -/
def load_path (title : String) : String :=
  ANALYSIS_DIR ++ "/" ++ String.mk (title.data.map fun c => if c = '/' then '_' else c) ++ ".md"

/-- The fixed placeholder of line 50. -/
def PLACEHOLDER : String := "<p>（暂无分析报告）</p>"

/-- Model of `load_analysis_content` (lines 39-50) with the filesystem passed in
as a path-to-text map and the `markdown.markdown` conversion as a
function argument: render the stored text when the file exists,
otherwise the fixed placeholder. -/
def load_analysis_content (render : String → String) (store : String → Option String)
    (title : String) : String :=
  match store (load_path title) with
  | some md_text => render md_text
  | none => PLACEHOLDER

/-- Model of `enrich_items_with_analysis` (lines 53-62): the display tuple
`(title, link, analysis)` for each record, in original order. -/
def enrich_items_with_analysis (render : String → String) (store : String → Option String)
    (items : List Item) : List (String × String × String) :=
  items.map fun item => (item.title, item.link, load_analysis_content render store item.title)

/-- Model of `save_report` (lines 102-115): the write it performs, as the
(path, text) pair. -/
def save_report (item : Item) (report : String) : String × String :=
  (save_report_path item.title, report)

/-- The filesystem after `save_report` wrote its one file into an empty
report directory. -/
def singleStore (file : String × String) : String → Option String :=
  fun k => if k = file.1 then some file.2 else none

/-! ## Concrete values used by witnesses and counterexamples -/

/-- A 401-character cleaned summary (401 letters `a`). -/
def raw401 : String := String.mk (List.replicate 401 'a')

/-- A 400-character cleaned summary. -/
def raw400 : String := String.mk (List.replicate 400 'a')

/-- An all-safe record title, 25 characters long. -/
def exTitle : String := "Attention Is All You Need"

/-- A record with a given title and source name, concrete in every
field. -/
def mkItem (title source_name : String) : Item :=
  { source_id := "src", source_name := source_name, category := "company"
    title := title, link := "https://example.org", published := "", summary := "" }

/-- A concrete rss source descriptor with a given id. -/
def mkSource (id : String) : Source :=
  { id := id, name := id, type := "rss", url := "https://example.org/rss"
    category := some "company", max_items := some 5 }

/-- A retrieval in which exactly the source `"b"` raises. -/
def exFetch : Source → Except String (List Item)
  | s =>
    if s.id = "b" then .error "boom"
    else if s.id = "a" then .ok [mkItem "A1" "a"]
    else .ok [mkItem "C1" "c"]

/-- A feed entry whose summary field holds a given raw text. -/
def exEntry (s : String) : AEntry :=
  { title := some "T", link := some "https://example.org", published_parsed := none
    updated_parsed := none, summary := some s, description := none }

/-- The error lines `fetch_all_sources` prints, one per raising
source. -/
def errLog (fetch : Source → Except String (List Item)) (sources : List Source) :
    List String :=
  sources.filterMap fun s =>
    match fetch s with
    | .error e => some ("[x] Error fetching " ++ s.id ++ ": " ++ e)
    | .ok _ => none

/-! ## Lemmas about the analysis client -/

theorem concatStrings_cons (a : String) (l : List String) :
    concatStrings (a :: l) = a ++ concatStrings l := rfl

theorem concatStrings_filter_ne (l : List String) :
    concatStrings (l.filter fun s => !(s == "")) = concatStrings l := by
  induction l with
  | nil => rfl
  | cons a l ih =>
    by_cases ha : a = ""
    · subst ha
      rw [show concatStrings ("" :: l) = concatStrings l from rfl]
      rw [show ("" :: l).filter (fun s => !(s == "")) = l.filter (fun s => !(s == "")) from rfl]
      exact ih
    · have hb : (a == "") = false := by simp [ha]
      rw [show (a :: l).filter (fun s => !(s == "")) =
            a :: l.filter (fun s => !(s == "")) by simp [List.filter, hb]]
      rw [concatStrings_cons, concatStrings_cons, ih]

theorem contentFragments_cons_reasoning (s : String) (rest : List Frag) :
    contentFragments (.reasoning s :: rest) = contentFragments rest := rfl

theorem contentFragments_cons_final (s : String) (rest : List Frag) :
    contentFragments (.final s :: rest) = s :: contentFragments rest := rfl

theorem surfacedFragments_nil : surfacedFragments [] = [] := rfl

theorem surfacedFragments_cons_reasoning (s : String) (rest : List Frag) :
    surfacedFragments (.reasoning s :: rest) = s :: surfacedFragments rest := rfl

theorem surfacedFragments_cons_final (s : String) (rest : List Frag) :
    surfacedFragments (.final s :: rest) =
      if s = "" then surfacedFragments rest else [] := by
  by_cases hs : s = ""
  · subst hs; rfl
  · have hb : (s == "") = false := by simp [hs]
    simp [surfacedFragments, reasoningFragments, List.takeWhile, isNonemptyFinal, hb, hs]

theorem analyze_step_reasoning (b : Bool) (fo rl : List String) (s : String) :
    analyze_step ⟨b, fo, rl⟩ ⟨some s, none⟩ =
      ⟨b, fo, if (s == "") || b then rl else rl ++ [s]⟩ := by
  cases b <;> by_cases hs : s = "" <;> simp [analyze_step, truthy, hs]

theorem analyze_step_final (b : Bool) (fo rl : List String) (s : String) :
    analyze_step ⟨b, fo, rl⟩ ⟨none, some s⟩ =
      if s = "" then ⟨b, fo, rl⟩ else ⟨true, fo ++ [s], rl⟩ := by
  by_cases hs : s = "" <;> simp [analyze_step, truthy, hs]

theorem analyze_foldl (frags : List Frag) : ∀ (b : Bool) (fo rl : List String),
    (frags.map Frag.toDelta).foldl analyze_step ⟨b, fo, rl⟩ =
      ⟨b || frags.any isNonemptyFinal,
       fo ++ (contentFragments frags).filter (fun s => !(s == "")),
       rl ++ if b then [] else (surfacedFragments frags).filter (fun s => !(s == ""))⟩ := by
  induction frags with
  | nil =>
    intro b fo rl
    cases b <;> simp [contentFragments, surfacedFragments, reasoningFragments]
  | cons f rest ih =>
    intro b fo rl
    cases f with
    | reasoning s =>
      rw [List.map_cons, List.foldl_cons, show Frag.toDelta (.reasoning s) = ⟨some s, none⟩
        from rfl, analyze_step_reasoning, ih]
      by_cases hs : s = ""
      · subst hs
        cases b <;>
          simp [contentFragments_cons_reasoning, surfacedFragments_cons_reasoning,
            List.any_cons, isNonemptyFinal, List.filter, contentFragments,
            surfacedFragments, reasoningFragments]
      · have hb : (s == "") = false := by simp [hs]
        cases b <;>
          simp [contentFragments_cons_reasoning, surfacedFragments_cons_reasoning,
            List.any_cons, isNonemptyFinal, List.filter, hb, contentFragments,
            surfacedFragments, reasoningFragments]
    | final s =>
      rw [List.map_cons, List.foldl_cons, show Frag.toDelta (.final s) = ⟨none, some s⟩
        from rfl, analyze_step_final]
      by_cases hs : s = ""
      · subst hs
        rw [if_pos rfl, ih]
        cases b <;>
          simp [contentFragments_cons_final, surfacedFragments_cons_final,
            List.any_cons, isNonemptyFinal, List.filter, contentFragments,
            surfacedFragments, reasoningFragments]
      · have hb : (s == "") = false := by simp [hs]
        rw [if_neg hs, ih]
        cases b <;>
          simp [contentFragments_cons_final, surfacedFragments_cons_final,
            List.any_cons, isNonemptyFinal, List.filter, hb, hs, contentFragments,
            surfacedFragments, reasoningFragments]

theorem analyze_foldl_no_content (chunks : List Delta) :
    ∀ (st : AState), (∀ d ∈ chunks, truthy d.content = false) →
      (chunks.foldl analyze_step st).final_output = st.final_output := by
  induction chunks with
  | nil => intro st _; rfl
  | cons d rest ih =>
    intro st h
    have hd : truthy d.content = false := h d (by simp)
    have hrest : ∀ d' ∈ rest, truthy d'.content = false := fun d' h' => h d' (by simp [h'])
    simp only [List.foldl, analyze_step, hd]
    by_cases hr : truthy d.reasoning_content && !st.is_answering
    · simp only [hr, if_true, Bool.false_eq_true, if_false]
      exact ih _ hrest
    · simp only [hr, if_false, Bool.false_eq_true]
      exact ih _ hrest

/-! ## Claim theorems: analysis client -/

/-- C1.  Protocol of `analyze_item`: on any pure chunk stream, the
returned analysis text is exactly the concatenation, in arrival order,
of the content fragments (and of nothing else), while the console
surfaces exactly the reasoning fragments arriving before the first
non-empty content fragment; in particular the stream
`[reasoning "a", reasoning "b", final "X", reasoning "c", final "Y"]`
returns `"XY"` and surfaces `"ab"`. -/
theorem c1_analyze_item_protocol :
    (∀ frags : List Frag,
      analyze_item (frags.map Frag.toDelta) =
        (concatStrings (contentFragments frags), concatStrings (surfacedFragments frags))) ∧
    analyze_item ([Frag.reasoning "a", Frag.reasoning "b", Frag.final "X",
        Frag.reasoning "c", Frag.final "Y"].map Frag.toDelta) = ("XY", "ab") := by
  constructor
  · intro frags
    show (let st := (frags.map Frag.toDelta).foldl analyze_step ⟨false, [], []⟩
          (concatStrings st.final_output, concatStrings st.reasoning_log)) = _
    rw [analyze_foldl]
    simp [concatStrings_filter_ne]
  · rfl

/-- C10.  A stream with no non-empty content fragment: `analyze_item`
returns the empty string (without raising), and the driver's
`save_report` then persists an empty artifact file for the record. -/
theorem c10_empty_stream_empty_artifact (chunks : List Delta) (item : Item)
    (h : ∀ d ∈ chunks, truthy d.content = false) :
    (analyze_item chunks).1 = "" ∧
    save_report item (analyze_item chunks).1 = (save_report_path item.title, "") := by
  have h1 : (analyze_item chunks).1 = "" := by
    show concatStrings (chunks.foldl analyze_step ⟨false, [], []⟩).final_output = ""
    rw [analyze_foldl_no_content chunks _ h]
    rfl
  exact ⟨h1, by rw [h1]; rfl⟩

/-- Witness for C10: a concrete stream of one reasoning fragment and one
empty content fragment yields the empty analysis and an empty saved
file. -/
theorem c10_witness :
    (analyze_item [⟨some "a", none⟩, ⟨none, some ""⟩]).1 = "" ∧
    save_report (mkItem "Foo" "src") (analyze_item [⟨some "a", none⟩, ⟨none, some ""⟩]).1 =
      (save_report_path "Foo", "") :=
  c10_empty_stream_empty_artifact [⟨some "a", none⟩, ⟨none, some ""⟩] (mkItem "Foo" "src")
    (by decide)

/-! ## Claim theorems: normalizer -/

/-- C7.  Per-source cap: `fetch_rss_source` produces at most
`max_items` (default 5) records, taken from the front of the feed's
native order. -/
theorem c7_per_source_item_cap (source : Source) (feed : Feed) :
    (fetch_rss_source source feed).length ≤ source.max_items.getD 5 ∧
    fetch_rss_source source feed =
      (feed.entries.take (source.max_items.getD 5)).map (normalize_entry source) := by
  refine ⟨?_, rfl⟩
  simp only [fetch_rss_source, List.length_map, List.length_take]
  omega

/-- C6.  `format_dt` totality: an absent timestamp gives `""`, a struct
the `datetime` constructor rejects gives `""` (the error is swallowed),
a valid struct gives its ISO-8601 UTC rendering; and the normalizer's
`published` field is `format_dt` of the entry's publish-or-update
timestamp. -/
theorem c6_format_dt_never_raises :
    format_dt none = "" ∧
    (∀ t : TimeStruct, validDatetime t = true → format_dt (some t) = isoUTC t) ∧
    (∀ t : TimeStruct, validDatetime t = false → format_dt (some t) = "") ∧
    (∀ (source : Source) (entry : AEntry),
      (normalize_entry source entry).published =
        format_dt (pyOr entry.published_parsed entry.updated_parsed)) := by
  refine ⟨rfl, fun t ht => ?_, fun t ht => ?_, fun source entry => rfl⟩
  · simp [format_dt, ht]
  · simp [format_dt, ht]

/-- Witness for C6: a valid concrete struct renders to its ISO string,
an out-of-range month is swallowed to `""`. -/
theorem c6_witness :
    format_dt (some ⟨2024, 1, 15, 12, 0, 0⟩) = "2024-01-15T12:00:00+00:00" ∧
    format_dt (some ⟨2024, 13, 15, 12, 0, 0⟩) = "" := by
  constructor
  · rw [c6_format_dt_never_raises.2.1 ⟨2024, 1, 15, 12, 0, 0⟩ (by decide)]
    decide
  · exact c6_format_dt_never_raises.2.2.1 ⟨2024, 13, 15, 12, 0, 0⟩ (by decide)

/-- C3.  Summary normalization: the normalized summary is the cleaned
(`strip_html`) description, truncated to its first 400 characters with
an appended ellipsis exactly when its length exceeds 400; a
401-character cleaned summary becomes 400 characters plus `"..."`
(403 in total), a 400-character one is unchanged. -/
theorem c3_summary_truncation (source : Source) (entry : AEntry) (raw cleaned : String)
    (hraw : (orFalsy entry.summary entry.description).getD "" = raw)
    (hclean : strip_html raw = cleaned) :
    ((normalize_entry source entry).summary =
      if cleaned.length > 400 then String.mk (cleaned.data.take 400) ++ "..." else cleaned) ∧
    (cleaned.length = 401 →
      (normalize_entry source entry).summary = String.mk (cleaned.data.take 400) ++ "..." ∧
      (normalize_entry source entry).summary.length = 403) ∧
    (cleaned.length = 400 → (normalize_entry source entry).summary = cleaned) := by
  have hmain : (normalize_entry source entry).summary =
      if cleaned.length > 400 then String.mk (cleaned.data.take 400) ++ "..." else cleaned := by
    simp only [normalize_entry, hraw, hclean]
  refine ⟨hmain, fun h401 => ?_, fun h400 => ?_⟩
  · have hgt : cleaned.length > 400 := by omega
    have heq : (normalize_entry source entry).summary =
        String.mk (cleaned.data.take 400) ++ "..." := by rw [hmain, if_pos hgt]
    refine ⟨heq, ?_⟩
    rw [heq, String.length_append]
    have hdata : cleaned.data.length = 401 := h401
    have : (String.mk (cleaned.data.take 400)).length = (cleaned.data.take 400).length := rfl
    rw [this, List.length_take, hdata]
    rfl
  · rw [hmain, if_neg (by omega)]

set_option maxRecDepth 4000 in
/-- Witness for C3: a 401-letter raw summary is truncated to 400 letters
plus the ellipsis; a 400-letter one is returned unchanged. -/
theorem c3_witness :
    (strip_html raw401).length = 401 ∧
    (normalize_entry (mkSource "s") (exEntry raw401)).summary =
      String.mk ((strip_html raw401).data.take 400) ++ "..." ∧
    (strip_html raw400).length = 400 ∧
    (normalize_entry (mkSource "s") (exEntry raw400)).summary = strip_html raw400 :=
  ⟨by decide,
   ((c3_summary_truncation (mkSource "s") (exEntry raw401) raw401 (strip_html raw401)
      (by decide) rfl).2.1 (by decide)).1,
   by decide,
   (c3_summary_truncation (mkSource "s") (exEntry raw400) raw400 (strip_html raw400)
      (by decide) rfl).2.2 (by decide)⟩

theorem errLog_length (fetch : Source → Except String (List Item)) (sources : List Source) :
    (errLog fetch sources).length = (sources.filter fun s => isErr (fetch s)).length := by
  induction sources with
  | nil => rfl
  | cons s rest ih =>
    simp only [errLog, List.filterMap] at *
    cases hf : fetch s <;> simp [List.filter, isErr, hf, ih]

theorem fetch_all_foldl (fetch : Source → Except String (List Item)) (sources : List Source) :
    ∀ acc1 acc2, (∀ s ∈ sources, s.type = "rss") →
      sources.foldl
        (fun acc src =>
          if src.type = "rss" then
            match fetch src with
            | .ok items => (acc.1 ++ items, acc.2)
            | .error e => (acc.1, acc.2 ++ ["[x] Error fetching " ++ src.id ++ ": " ++ e])
          else
            (acc.1, acc.2 ++ ["[!] Unsupported source type: " ++ src.type ++ " for " ++ src.id]))
        (acc1, acc2) =
      (acc1 ++ sources.flatMap (fun s => okItems (fetch s)), acc2 ++ errLog fetch sources) := by
  induction sources with
  | nil => intro acc1 acc2 _; simp [errLog]
  | cons s rest ih =>
    intro acc1 acc2 h
    have hs : s.type = "rss" := h s (by simp)
    have hrest : ∀ s' ∈ rest, s'.type = "rss" := fun s' h' => h s' (by simp [h'])
    rw [List.foldl_cons, if_pos hs]
    cases hf : fetch s with
    | ok items =>
      rw [ih _ _ hrest]
      simp [okItems, errLog, hf, List.filterMap]
    | error e =>
      rw [ih _ _ hrest]
      simp [okItems, errLog, hf, List.filterMap]

/-- C4.  Source-failure isolation in `fetch_all_sources`: over rss
descriptors, the returned records are the concatenation, in source
order, of the records of the non-raising sources, and one error line is
logged per raising source; in particular with three descriptors of which
the second raises, the result is the first source's records followed by
the third's, with exactly one failure logged. -/
theorem c4_source_failure_isolation :
    (∀ (sources : List Source) (fetch : Source → Except String (List Item)),
      (∀ s ∈ sources, s.type = "rss") →
      (fetch_all_sources fetch sources).1 = sources.flatMap (fun s => okItems (fetch s)) ∧
      (fetch_all_sources fetch sources).2.length =
        (sources.filter fun s => isErr (fetch s)).length) ∧
    (∀ (s₁ s₂ s₃ : Source) (fetch : Source → Except String (List Item))
       (l₁ l₃ : List Item) (e : String),
      s₁.type = "rss" → s₂.type = "rss" → s₃.type = "rss" →
      fetch s₁ = .ok l₁ → fetch s₂ = .error e → fetch s₃ = .ok l₃ →
      (fetch_all_sources fetch [s₁, s₂, s₃]).1 = l₁ ++ l₃ ∧
      (fetch_all_sources fetch [s₁, s₂, s₃]).2.length = 1) := by
  have hgen : ∀ (sources : List Source) (fetch : Source → Except String (List Item)),
      (∀ s ∈ sources, s.type = "rss") →
      fetch_all_sources fetch sources =
        (sources.flatMap (fun s => okItems (fetch s)), errLog fetch sources) := by
    intro sources fetch h
    show sources.foldl _ ([], []) = _
    rw [fetch_all_foldl fetch sources [] [] h]
    simp
  constructor
  · intro sources fetch h
    rw [hgen sources fetch h]
    exact ⟨rfl, errLog_length fetch sources⟩
  · intro s₁ s₂ s₃ fetch l₁ l₃ e h₁ h₂ h₃ hf₁ hf₂ hf₃
    have hall : ∀ s ∈ [s₁, s₂, s₃], s.type = "rss" := by
      intro s hs
      simp only [List.mem_cons, List.not_mem_nil, or_false] at hs
      rcases hs with rfl | rfl | rfl
      exacts [h₁, h₂, h₃]
    rw [hgen [s₁, s₂, s₃] fetch hall]
    constructor
    · simp [List.flatMap, okItems, hf₁, hf₂, hf₃]
    · simp [errLog, List.filterMap, hf₁, hf₂, hf₃]

/-- Witness for C4: three concrete rss descriptors of which exactly the
second raises yield the first and third sources' records and one logged
failure. -/
theorem c4_witness :
    (fetch_all_sources exFetch [mkSource "a", mkSource "b", mkSource "c"]).1 =
      [mkItem "A1" "a"] ++ [mkItem "C1" "c"] ∧
    (fetch_all_sources exFetch [mkSource "a", mkSource "b", mkSource "c"]).2.length = 1 :=
  c4_source_failure_isolation.2 (mkSource "a") (mkSource "b") (mkSource "c") exFetch
    [mkItem "A1" "a"] [mkItem "C1" "c"] "boom" rfl rfl rfl rfl rfl rfl

/-! ## Claim theorems: aggregator -/

theorem bump_keys (k : String) (acc : List (String × Nat)) :
    (bump k acc).map Prod.fst =
      if k ∈ acc.map Prod.fst then acc.map Prod.fst else acc.map Prod.fst ++ [k] := by
  induction acc with
  | nil => simp [bump]
  | cons p rest ih =>
    obtain ⟨k', n⟩ := p
    by_cases hk : k' = k
    · subst hk
      simp [bump]
    · simp only [bump, if_neg hk, List.map_cons]
      rw [ih]
      by_cases hmem : k ∈ rest.map Prod.fst
      · simp [hmem, Ne.symm hk]
      · simp [hmem, Ne.symm hk]

theorem bump_lookupD_self (k : String) (acc : List (String × Nat)) :
    lookupD (bump k acc) k = lookupD acc k + 1 := by
  induction acc with
  | nil => simp [bump, lookupD, List.lookup]
  | cons p rest ih =>
    obtain ⟨k', n⟩ := p
    by_cases hk : k' = k
    · subst hk
      simp [bump, lookupD, List.lookup]
    · have hb : (k == k') = false := by simp [Ne.symm hk]
      simp only [bump, if_neg hk, lookupD, List.lookup, hb]
      exact ih

theorem bump_lookupD_other (k k' : String) (acc : List (String × Nat)) (h : k' ≠ k) :
    lookupD (bump k acc) k' = lookupD acc k' := by
  induction acc with
  | nil =>
    have hb : (k' == k) = false := by simp [h]
    simp [bump, lookupD, List.lookup, hb]
  | cons p rest ih =>
    obtain ⟨k'', n⟩ := p
    by_cases hk : k'' = k
    · subst hk
      have hb : (k' == k'') = false := by simp [h]
      simp [bump, lookupD, List.lookup, hb]
    · simp only [bump, if_neg hk, lookupD, List.lookup]
      by_cases hk' : k' = k''
      · simp [hk']
      · have hb : (k' == k'') = false := by simp [hk']
        simp only [hb, Bool.false_eq_true, if_false]
        exact ih

theorem bump_sum (k : String) (acc : List (String × Nat)) :
    ((bump k acc).map Prod.snd).sum = ((acc.map Prod.snd).sum) + 1 := by
  induction acc with
  | nil => simp [bump]
  | cons p rest ih =>
    obtain ⟨k', n⟩ := p
    by_cases hk : k' = k
    · subst hk
      simp [bump]
      omega
    · simp only [bump, if_neg hk, List.map_cons, List.sum_cons, ih]
      omega

theorem firstOcc_congr (keys : List String) : ∀ s₁ s₂ : List String,
    (∀ x, x ∈ s₁ ↔ x ∈ s₂) → firstOcc s₁ keys = firstOcc s₂ keys := by
  induction keys with
  | nil => intro _ _ _; rfl
  | cons k rest ih =>
    intro s₁ s₂ h
    by_cases hk : k ∈ s₁
    · rw [firstOcc, firstOcc, if_pos hk, if_pos ((h k).mp hk)]
      exact ih s₁ s₂ h
    · rw [firstOcc, firstOcc, if_neg hk, if_neg (fun hc => hk ((h k).mpr hc))]
      refine congrArg (k :: ·) (ih _ _ fun x => ?_)
      simp [h x]

theorem counter_foldl (keys : List String) : ∀ acc : List (String × Nat),
    (keys.foldl (fun a k => bump k a) acc).map Prod.fst =
        acc.map Prod.fst ++ firstOcc (acc.map Prod.fst) keys ∧
    (∀ k, lookupD (keys.foldl (fun a k => bump k a) acc) k = lookupD acc k + keys.count k) ∧
    ((keys.foldl (fun a k => bump k a) acc).map Prod.snd).sum =
        (acc.map Prod.snd).sum + keys.length := by
  induction keys with
  | nil => intro acc; simp [firstOcc]
  | cons k rest ih =>
    intro acc
    rw [List.foldl_cons]
    obtain ⟨ihkeys, ihlook, ihsum⟩ := ih (bump k acc)
    refine ⟨?_, fun k' => ?_, ?_⟩
    · rw [ihkeys, bump_keys]
      by_cases hmem : k ∈ acc.map Prod.fst
      · rw [if_pos hmem, firstOcc, if_pos hmem]
      · rw [if_neg hmem, firstOcc, if_neg hmem, List.append_assoc]
        refine congrArg (acc.map Prod.fst ++ ·) (congrArg (k :: ·) ?_)
        refine firstOcc_congr rest _ _ fun x => ?_
        simp [or_comm]
    · rw [ihlook k']
      by_cases hk : k' = k
      · subst hk
        rw [bump_lookupD_self]
        simp [List.count_cons]
        omega
      · rw [bump_lookupD_other k k' acc hk]
        have hb : (k == k') = false := by simp [Ne.symm hk]
        simp [List.count_cons, hb]
    · rw [ihsum, bump_sum]
      simp
      omega

/-- C8.  `build_summary`: the count is the number of records, the
sources mapping lists each distinct `source_name` in first-occurrence
order with the number of records sharing it, and the per-source counts
sum to the total count. -/
theorem c8_build_summary_counts (items : List Item) :
    (build_summary items).count = items.length ∧
    (build_summary items).sources.map Prod.fst =
      firstOcc [] (items.map (·.source_name)) ∧
    (∀ name, lookupD (build_summary items).sources name =
      (items.map (·.source_name)).count name) ∧
    ((build_summary items).sources.map Prod.snd).sum = items.length := by
  obtain ⟨hkeys, hlook, hsum⟩ := counter_foldl (items.map (·.source_name)) []
  refine ⟨rfl, ?_, fun name => ?_, ?_⟩
  · simpa [build_summary, counterList] using hkeys
  · have := hlook name
    simpa [build_summary, counterList, lookupD, List.lookup] using this
  · simpa [build_summary, counterList] using hsum

/-- C5.  Missing artifacts: a record title absent from the artifact
store renders as the fixed placeholder (no exception is modelled: the
function is total), and the aggregator reads the store only at the
titles of the current records, so orphan artifacts are never read. -/
theorem c5_missing_artifact_placeholder :
    (∀ (render : String → String) (store : String → Option String) (title : String),
      store (load_path title) = none →
      load_analysis_content render store title = PLACEHOLDER) ∧
    (∀ (render : String → String) (store store' : String → Option String)
       (items : List Item),
      (∀ it ∈ items, store (load_path it.title) = store' (load_path it.title)) →
      enrich_items_with_analysis render store items =
        enrich_items_with_analysis render store' items) := by
  constructor
  · intro render store title h
    simp [load_analysis_content, h]
  · intro render store store' items h
    refine List.map_congr_left fun it hit => ?_
    simp [load_analysis_content, h it hit]

/-- Witness for C5: with an empty store, the record `"Foo"` renders the
placeholder; an orphan artifact (for a title outside the snapshot) does
not change the aggregator's output. -/
theorem c5_witness :
    load_analysis_content id (fun _ => none) "Foo" = PLACEHOLDER ∧
    enrich_items_with_analysis id (fun _ => none) [mkItem "Foo" "s"] =
      enrich_items_with_analysis id
        (singleStore ("analysis_reports/Orphan.md", "orphan text")) [mkItem "Foo" "s"] :=
  ⟨c5_missing_artifact_placeholder.1 id (fun _ => none) "Foo" rfl,
   c5_missing_artifact_placeholder.2 id (fun _ => none)
     (singleStore ("analysis_reports/Orphan.md", "orphan text")) [mkItem "Foo" "s"]
     (by decide)⟩

/-- C2 counterexample.  The write key of `save_report` and the read key
of `load_analysis_content` differ for the title `"A/B"`: the saver
deletes the slash (writing `AB.md`), the aggregator replaces it with an
underscore (reading `A_B.md`), so the lookup of the just-saved artifact
yields the placeholder, not the rendered artifact. -/
theorem c2_counterexample :
    save_report_path "A/B" ≠ load_path "A/B" ∧
    load_analysis_content id (singleStore (save_report (mkItem "A/B" "s") "report")) "A/B" =
      PLACEHOLDER := by
  decide

/-- C2 (amended).  For titles made only of filesystem-safe characters
(alphanumeric, space, underscore, hyphen), with no surrounding
whitespace and at most 60 characters, the write key and the read key
coincide, and the aggregator's lookup finds the saved artifact and
renders its text. -/
theorem c2_roundtrip_safe_titles (render : String → String) (report : String) (title : String)
    (hsafe : ∀ c ∈ title.data, safeChar c = true)
    (hstrip : pyStrip title.data = title.data)
    (hlen : title.length ≤ 60) :
    save_report_path title = load_path title ∧
    ∀ item : Item, item.title = title →
      load_analysis_content render (singleStore (save_report item report)) title =
        render report := by
  have hfilter : title.data.filter safeChar = title.data := List.filter_eq_self.mpr hsafe
  have htake : (title.data.take 60) = title.data :=
    List.take_of_length_le (by exact hlen)
  have hsave : save_report_path title = "analysis_reports/" ++ title ++ ".md" := by
    rw [save_report_path, hfilter, hstrip, htake]
    rw [show String.mk title.data = title from rfl]
    rw [show (OUTPUT_DIR ++ "/" : String) = "analysis_reports/" from rfl]
  have hmap : title.data.map (fun c => if c = '/' then '_' else c) = title.data := by
    have : ∀ c ∈ title.data, (if c = '/' then '_' else c) = c := by
      intro c hc
      have hcsafe := hsafe c hc
      by_cases hc' : c = '/'
      · subst hc'
        exact absurd hcsafe (by decide)
      · rw [if_neg hc']
    rw [List.map_congr_left this]
    exact List.map_id' title.data
  have hload : load_path title = "analysis_reports/" ++ title ++ ".md" := by
    rw [load_path, hmap]
    rw [show String.mk title.data = title from rfl]
    rw [show (ANALYSIS_DIR ++ "/" : String) = "analysis_reports/" from rfl]
  refine ⟨hsave.trans hload.symm, fun item hitem => ?_⟩
  rw [load_analysis_content]
  have hkey : singleStore (save_report item report) (load_path title) = some report := by
    rw [singleStore, save_report, hitem]
    rw [if_pos (hload.trans hsave.symm)]
  rw [hkey]

/-- Witness for C2 (amended): a concrete all-safe 25-character title
saved and then looked up round-trips to the rendered report. -/
theorem c2_witness :
    save_report_path exTitle = load_path exTitle ∧
    load_analysis_content id (singleStore (save_report (mkItem exTitle "s") "report"))
      exTitle = id "report" :=
  ⟨(c2_roundtrip_safe_titles id "report" exTitle (by decide) (by decide) (by decide)).1,
   (c2_roundtrip_safe_titles id "report" exTitle (by decide) (by decide) (by decide)).2
     (mkItem exTitle "s") rfl⟩

/-! ## Idempotence of `strip_html` (C9)

The one-pass output of the tag scan is `tagFree`, the output of the
whitespace collapse is `wsNormal`, and both properties survive the
later pipeline stages; on `tagFree`, `wsNormal`, stripped text each
stage is the identity. -/

theorem skipToClose_none_iff (l : List Char) : skipToClose l = none ↔ '>' ∉ l := by
  induction l with
  | nil => simp [skipToClose]
  | cons c rest ih =>
    by_cases hc : c = '>'
    · subst hc
      simp [skipToClose]
    · simp [skipToClose, hc, ih, Ne.symm hc]

theorem skipToClose_length (l : List Char) :
    ∀ r, skipToClose l = some r → r.length < l.length := by
  induction l with
  | nil => intro r h; simp [skipToClose] at h
  | cons c rest ih =>
    intro r h
    by_cases hc : c = '>'
    · subst hc
      simp [skipToClose] at h
      subst h
      simp
    · rw [skipToClose, if_neg hc] at h
      have := ih r h
      simp
      omega

theorem skipToClose_mem (l : List Char) :
    ∀ r, skipToClose l = some r → ∀ c, c ∈ r → c ∈ l := by
  induction l with
  | nil => intro r h; simp [skipToClose] at h
  | cons c rest ih =>
    intro r h d hd
    by_cases hc : c = '>'
    · subst hc
      simp [skipToClose] at h
      subst h
      simp [hd]
    · rw [skipToClose, if_neg hc] at h
      exact List.mem_cons_of_mem c (ih r h d hd)

theorem matchTagRest_length (l : List Char) :
    ∀ r, matchTagRest l = some r → r.length < l.length := by
  intro r h
  cases l with
  | nil => simp [matchTagRest] at h
  | cons c rest =>
    by_cases hc : c = '>'
    · subst hc; simp [matchTagRest] at h
    · rw [matchTagRest, if_neg hc] at h
      have := skipToClose_length rest r h
      simp
      omega

theorem matchTagRest_mem (l : List Char) :
    ∀ r, matchTagRest l = some r → ∀ c, c ∈ r → c ∈ l := by
  intro r h d hd
  cases l with
  | nil => simp [matchTagRest] at h
  | cons c rest =>
    by_cases hc : c = '>'
    · subst hc; simp [matchTagRest] at h
    · rw [matchTagRest, if_neg hc] at h
      exact List.mem_cons_of_mem c (skipToClose_mem rest r h d hd)

theorem matchTagRest_none_of_not_mem (l : List Char) (h : '>' ∉ l) :
    matchTagRest l = none := by
  cases l with
  | nil => rfl
  | cons c rest =>
    have hc : ¬c = '>' := fun hc => h (hc ▸ List.mem_cons_self c rest)
    rw [matchTagRest, if_neg hc]
    exact (skipToClose_none_iff rest).mpr fun hr => h (List.mem_cons_of_mem c hr)

theorem matchTagRest_none_cases (l : List Char) (h : matchTagRest l = none) :
    l = [] ∨ (∃ r, l = '>' :: r) ∨ '>' ∉ l := by
  cases l with
  | nil => exact Or.inl rfl
  | cons c rest =>
    by_cases hc : c = '>'
    · exact Or.inr (Or.inl ⟨rest, by rw [hc]⟩)
    · rw [matchTagRest, if_neg hc] at h
      refine Or.inr (Or.inr ?_)
      have hrest := (skipToClose_none_iff rest).mp h
      simp [hc, Ne.symm hc, hrest]

theorem subTags_nil (fuel : Nat) : subTags fuel [] = [] := by
  cases fuel <;> rfl

theorem tagFree_cons (c : Char) (rest : List Char) :
    tagFree (c :: rest) =
      ((if c = '<' then (matchTagRest rest).isNone else true) && tagFree rest) := rfl

theorem tagFree_cons_tail (c : Char) (rest : List Char) (h : tagFree (c :: rest) = true) :
    tagFree rest = true := by
  rw [tagFree_cons, Bool.and_eq_true] at h
  exact h.2

theorem mem_subTags : ∀ (fuel : Nat) (l : List Char) (c : Char),
    c ∈ subTags fuel l → c ∈ l ∨ c = ' ' := by
  intro fuel
  induction fuel with
  | zero =>
    intro l c h
    cases l with
    | nil => simp [subTags] at h
    | cons d rest => exact Or.inl h
  | succ fuel ih =>
    intro l c h
    cases l with
    | nil => simp [subTags] at h
    | cons d rest =>
      by_cases hd : d = '<'
      · subst hd
        rw [subTags, if_pos rfl] at h
        cases hm : matchTagRest rest with
        | some rem =>
          rw [hm] at h
          rcases List.mem_cons.mp h with hc | hc
          · exact Or.inr hc
          · rcases ih rem c hc with hc' | hc'
            · exact Or.inl (List.mem_cons_of_mem _ (matchTagRest_mem rest rem hm c hc'))
            · exact Or.inr hc'
        | none =>
          rw [hm] at h
          rcases List.mem_cons.mp h with hc | hc
          · exact Or.inl (hc ▸ List.mem_cons_self _ _)
          · rcases ih rest c hc with hc' | hc'
            · exact Or.inl (List.mem_cons_of_mem _ hc')
            · exact Or.inr hc'
      · rw [subTags, if_neg hd] at h
        rcases List.mem_cons.mp h with hc | hc
        · exact Or.inl (hc ▸ List.mem_cons_self _ _)
        · rcases ih rest c hc with hc' | hc'
          · exact Or.inl (List.mem_cons_of_mem _ hc')
          · exact Or.inr hc'

theorem not_mem_gt_subTags (fuel : Nat) (l : List Char) (h : '>' ∉ l) :
    '>' ∉ subTags fuel l := by
  intro hc
  rcases mem_subTags fuel l '>' hc with h' | h'
  · exact h h'
  · simp at h'

theorem tagFree_subTags : ∀ (fuel : Nat) (l : List Char),
    l.length ≤ fuel → tagFree (subTags fuel l) = true := by
  intro fuel
  induction fuel with
  | zero =>
    intro l hl
    have : l = [] := List.length_eq_zero.mp (Nat.le_zero.mp hl)
    subst this
    rfl
  | succ fuel ih =>
    intro l hl
    cases l with
    | nil => rfl
    | cons c rest =>
      simp only [List.length_cons] at hl
      have hrest : rest.length ≤ fuel := by omega
      by_cases hc : c = '<'
      · subst hc
        rw [subTags, if_pos rfl]
        cases hm : matchTagRest rest with
        | some rem =>
          have hrem : rem.length ≤ fuel := by
            have := matchTagRest_length rest rem hm
            omega
          rw [tagFree_cons, if_neg (by decide), Bool.true_and]
          exact ih rem hrem
        | none =>
          rw [tagFree_cons, if_pos rfl, Bool.and_eq_true]
          refine ⟨?_, ih rest hrest⟩
          rcases matchTagRest_none_cases rest hm with hnil | ⟨r, hr⟩ | hmem
          · subst hnil
            rw [subTags_nil]
            rfl
          · subst hr
            cases fuel with
            | zero => simp at hrest
            | succ fuel' =>
              rw [subTags, if_neg (by decide)]
              rfl
          · rw [matchTagRest_none_of_not_mem _ (not_mem_gt_subTags fuel rest hmem)]
            rfl
      · rw [subTags, if_neg hc, tagFree_cons, if_neg hc, Bool.true_and]
        exact ih rest hrest

theorem subTags_id_of_tagFree : ∀ (l : List Char) (fuel : Nat),
    tagFree l = true → subTags fuel l = l := by
  intro l
  induction l with
  | nil => intro fuel _; exact subTags_nil fuel
  | cons c rest ih =>
    intro fuel h
    cases fuel with
    | zero => rfl
    | succ fuel =>
      have hrest := tagFree_cons_tail c rest h
      by_cases hc : c = '<'
      · subst hc
        rw [tagFree_cons, if_pos rfl, Bool.and_eq_true] at h
        have hm : matchTagRest rest = none := by
          cases hm : matchTagRest rest with
          | some r => rw [hm] at h; simp at h
          | none => rfl
        rw [subTags, if_pos rfl, hm, ih fuel hrest]
      · rw [subTags, if_neg hc, ih fuel hrest]

theorem tagFree_dropWhile (p : Char → Bool) (l : List Char) (h : tagFree l = true) :
    tagFree (l.dropWhile p) = true := by
  induction l with
  | nil => exact h
  | cons c rest ih =>
    rw [List.dropWhile_cons]
    by_cases hp : p c
    · simp only [hp, if_true]
      exact ih (tagFree_cons_tail c rest h)
    · simp only [hp, Bool.false_eq_true, if_false]
      exact h

theorem matchTagRest_none_append (a b : List Char) (h : matchTagRest (a ++ b) = none) :
    matchTagRest a = none := by
  cases a with
  | nil => rfl
  | cons c rest =>
    by_cases hc : c = '>'
    · rw [matchTagRest, if_pos hc]
    · rw [List.cons_append, matchTagRest, if_neg hc] at h
      rw [matchTagRest, if_neg hc]
      have := (skipToClose_none_iff (rest ++ b)).mp h
      refine (skipToClose_none_iff rest).mpr fun hr => this ?_
      exact List.mem_append_left b hr

theorem tagFree_append_left : ∀ a b : List Char, tagFree (a ++ b) = true → tagFree a = true := by
  intro a
  induction a with
  | nil => intro b _; rfl
  | cons c a' ih =>
    intro b h
    rw [List.cons_append, tagFree_cons, Bool.and_eq_true] at h
    rw [tagFree_cons, Bool.and_eq_true]
    refine ⟨?_, ih b h.2⟩
    by_cases hc : c = '<'
    · rw [if_pos hc]
      rw [if_pos hc] at h
      have h1 := h.1
      cases hm : matchTagRest (a' ++ b) with
      | some r => rw [hm] at h1; simp at h1
      | none => rw [matchTagRest_none_append a' b hm]; rfl
    · rw [if_neg hc]

theorem mem_collapseWs : ∀ (l : List Char) (b : Bool) (c : Char),
    c ∈ collapseWs b l → c ∈ l ∨ c = ' ' := by
  intro l
  induction l with
  | nil => intro b c h; simp [collapseWs] at h
  | cons d rest ih =>
    intro b c h
    by_cases hw : d.isWhitespace
    · rw [collapseWs, if_pos hw] at h
      cases b with
      | true =>
        simp only [if_true] at h
        rcases ih true c h with hc | hc
        · exact Or.inl (List.mem_cons_of_mem _ hc)
        · exact Or.inr hc
      | false =>
        simp only [Bool.false_eq_true, if_false] at h
        rcases List.mem_cons.mp h with hc | hc
        · exact Or.inr hc
        · rcases ih true c hc with hc' | hc'
          · exact Or.inl (List.mem_cons_of_mem _ hc')
          · exact Or.inr hc'
    · rw [collapseWs, if_neg hw] at h
      rcases List.mem_cons.mp h with hc | hc
      · exact Or.inl (hc ▸ List.mem_cons_self _ _)
      · rcases ih false c hc with hc' | hc'
        · exact Or.inl (List.mem_cons_of_mem _ hc')
        · exact Or.inr hc'

theorem tagFree_collapseWs : ∀ (l : List Char) (b : Bool),
    tagFree l = true → tagFree (collapseWs b l) = true := by
  intro l
  induction l with
  | nil => intro b _; rfl
  | cons c rest ih =>
    intro b h
    have hrest := tagFree_cons_tail c rest h
    by_cases hw : c.isWhitespace
    · rw [collapseWs, if_pos hw]
      cases b with
      | true => simpa using ih true hrest
      | false =>
        simp only [Bool.false_eq_true, if_false]
        rw [tagFree_cons, if_neg (by decide), Bool.true_and]
        exact ih true hrest
    · rw [collapseWs, if_neg hw]
      by_cases hc : c = '<'
      · subst hc
        rw [tagFree_cons, if_pos rfl, Bool.and_eq_true] at h
        rw [tagFree_cons, if_pos rfl, Bool.and_eq_true]
        refine ⟨?_, ih false hrest⟩
        have h1 := h.1
        have hm : matchTagRest rest = none := by
          cases hm : matchTagRest rest with
          | some r => rw [hm] at h1; simp at h1
          | none => rfl
        rcases matchTagRest_none_cases rest hm with hnil | ⟨r, hr⟩ | hmem
        · subst hnil
          rfl
        · subst hr
          rw [collapseWs, if_neg (by decide), matchTagRest, if_pos rfl]
          rfl
        · have : '>' ∉ collapseWs false rest := by
            intro hcmem
            rcases mem_collapseWs rest false '>' hcmem with h' | h'
            · exact hmem h'
            · simp at h'
          rw [matchTagRest_none_of_not_mem _ this]
          rfl
      · rw [tagFree_cons, if_neg hc, Bool.true_and]
        exact ih false hrest

theorem headWs_collapseWs_true (l : List Char) : headWs (collapseWs true l) = false := by
  induction l with
  | nil => rfl
  | cons c rest ih =>
    by_cases hw : c.isWhitespace
    · rw [collapseWs, if_pos hw]
      simpa using ih
    · rw [collapseWs, if_neg hw]
      simpa [headWs] using hw

theorem wsNormal_cons (c : Char) (rest : List Char) :
    wsNormal (c :: rest) =
      ((!c.isWhitespace || (c == ' ' && !headWs rest)) && wsNormal rest) := rfl

theorem wsNormal_cons_tail (c : Char) (rest : List Char) (h : wsNormal (c :: rest) = true) :
    wsNormal rest = true := by
  rw [wsNormal_cons, Bool.and_eq_true] at h
  exact h.2

theorem wsNormal_collapseWs : ∀ (l : List Char) (b : Bool),
    wsNormal (collapseWs b l) = true := by
  intro l
  induction l with
  | nil => intro b; rfl
  | cons c rest ih =>
    intro b
    by_cases hw : c.isWhitespace
    · rw [collapseWs, if_pos hw]
      cases b with
      | true => simpa using ih true
      | false =>
        simp only [Bool.false_eq_true, if_false]
        rw [wsNormal_cons, Bool.and_eq_true]
        refine ⟨?_, ih true⟩
        rw [headWs_collapseWs_true]
        decide
    · rw [collapseWs, if_neg hw, wsNormal_cons, Bool.and_eq_true]
      exact ⟨by simp [hw], ih false⟩

theorem collapseWs_true_eq_of_headWs (l : List Char) (h : headWs l = false) :
    collapseWs true l = collapseWs false l := by
  cases l with
  | nil => rfl
  | cons c rest =>
    have hw : c.isWhitespace = false := h
    rw [collapseWs, collapseWs, hw]
    simp

theorem collapseWs_id_of_wsNormal : ∀ l : List Char,
    wsNormal l = true → collapseWs false l = l := by
  intro l
  induction l with
  | nil => intro _; rfl
  | cons c rest ih =>
    intro h
    have hrest := wsNormal_cons_tail c rest h
    rw [wsNormal_cons, Bool.and_eq_true] at h
    by_cases hw : c.isWhitespace
    · have hcond := h.1
      rw [hw] at hcond
      simp only [Bool.not_true, Bool.false_or, Bool.and_eq_true] at hcond
      have hsp : c = ' ' := by simpa using hcond.1
      have hhd : headWs rest = false := by simpa using hcond.2
      rw [collapseWs, if_pos hw, collapseWs_true_eq_of_headWs rest hhd, ih hrest]
      simp [hsp]
    · rw [collapseWs, if_neg hw, ih hrest]

theorem wsNormal_dropWhile (p : Char → Bool) (l : List Char) (h : wsNormal l = true) :
    wsNormal (l.dropWhile p) = true := by
  induction l with
  | nil => exact h
  | cons c rest ih =>
    rw [List.dropWhile_cons]
    by_cases hp : p c
    · simp only [hp, if_true]
      exact ih (wsNormal_cons_tail c rest h)
    · simp only [hp, Bool.false_eq_true, if_false]
      exact h

theorem wsNormal_append_left : ∀ a b : List Char,
    wsNormal (a ++ b) = true → wsNormal a = true := by
  intro a
  induction a with
  | nil => intro b _; rfl
  | cons c a' ih =>
    intro b h
    rw [List.cons_append, wsNormal_cons, Bool.and_eq_true] at h
    rw [wsNormal_cons, Bool.and_eq_true]
    refine ⟨?_, ih b h.2⟩
    have h1 := h.1
    rcases Bool.or_eq_true_iff.mp h1 with hnw | hsp
    · rw [hnw]
      rfl
    · rw [Bool.and_eq_true] at hsp
      cases a' with
      | nil => simp [headWs, hsp.1]
      | cons d a'' =>
        have : headWs (d :: a'' ++ b) = headWs (d :: a'') := rfl
        rw [this] at hsp
        simp [hsp.1, hsp.2]

theorem exists_suffix_rdrop (p : Char → Bool) (l : List Char) :
    ∃ t, l = (l.reverse.dropWhile p).reverse ++ t := by
  refine ⟨(l.reverse.takeWhile p).reverse, ?_⟩
  rw [← List.reverse_append, List.takeWhile_append_dropWhile, List.reverse_reverse]

theorem tagFree_pyStrip (l : List Char) (h : tagFree l = true) :
    tagFree (pyStrip l) = true := by
  have h1 := tagFree_dropWhile Char.isWhitespace l h
  obtain ⟨t, ht⟩ := exists_suffix_rdrop Char.isWhitespace (l.dropWhile Char.isWhitespace)
  rw [ht] at h1
  exact tagFree_append_left _ t h1

theorem wsNormal_pyStrip (l : List Char) (h : wsNormal l = true) :
    wsNormal (pyStrip l) = true := by
  have h1 := wsNormal_dropWhile Char.isWhitespace l h
  obtain ⟨t, ht⟩ := exists_suffix_rdrop Char.isWhitespace (l.dropWhile Char.isWhitespace)
  rw [ht] at h1
  exact wsNormal_append_left _ t h1

theorem dropWhile_dropWhile (p : Char → Bool) (l : List Char) :
    (l.dropWhile p).dropWhile p = l.dropWhile p := by
  induction l with
  | nil => rfl
  | cons c rest ih =>
    rw [List.dropWhile_cons]
    by_cases hp : p c
    · simp only [hp, if_true]
      exact ih
    · simp only [hp, Bool.false_eq_true, if_false, List.dropWhile_cons, hp]

theorem headWs_dropWhile (l : List Char) :
    headWs (l.dropWhile Char.isWhitespace) = false := by
  induction l with
  | nil => rfl
  | cons c rest ih =>
    rw [List.dropWhile_cons]
    by_cases hw : c.isWhitespace
    · simp only [hw, if_true]
      exact ih
    · simp only [hw, Bool.false_eq_true, if_false]
      simpa [headWs] using hw

theorem pyStrip_idem (l : List Char) : pyStrip (pyStrip l) = pyStrip l := by
  have hA : (pyStrip l).dropWhile Char.isWhitespace = pyStrip l := by
    cases hY : pyStrip l with
    | nil => rfl
    | cons c y =>
      obtain ⟨t, ht⟩ := exists_suffix_rdrop Char.isWhitespace (l.dropWhile Char.isWhitespace)
      have hX : l.dropWhile Char.isWhitespace = c :: (y ++ t) := by
        rw [ht]
        rw [show (((l.dropWhile Char.isWhitespace).reverse.dropWhile
            Char.isWhitespace).reverse : List Char) = pyStrip l from rfl, hY]
        rfl
      have hhead : headWs (l.dropWhile Char.isWhitespace) = false := headWs_dropWhile l
      rw [hX] at hhead
      have hw : c.isWhitespace = false := hhead
      rw [List.dropWhile_cons]
      simp [hw]
  show ((((pyStrip l).dropWhile Char.isWhitespace).reverse).dropWhile
      Char.isWhitespace).reverse = pyStrip l
  rw [hA]
  have hrev : (pyStrip l).reverse =
      (l.dropWhile Char.isWhitespace).reverse.dropWhile Char.isWhitespace := by
    rw [show (pyStrip l : List Char) =
      ((l.dropWhile Char.isWhitespace).reverse.dropWhile Char.isWhitespace).reverse from rfl]
    rw [List.reverse_reverse]
  rw [hrev, dropWhile_dropWhile, ← hrev, List.reverse_reverse]

/-- C9.  `strip_html` is idempotent: a single pass already removes every
tag-shaped substring and leaves the text whitespace-collapsed and
trimmed, so a second pass changes nothing. -/
theorem c9_strip_html_idempotent (s : String) : strip_html (strip_html s) = strip_html s := by
  by_cases hs : s = ""
  · subst hs
    rfl
  · have hmain : strip_html s = String.mk (pyStrip (collapseWs false (stripTags s.data))) := by
      rw [strip_html, if_neg hs]
    by_cases h0 : String.mk (pyStrip (collapseWs false (stripTags s.data))) = ""
    · rw [hmain, h0]
      rfl
    · rw [hmain, strip_html, if_neg h0]
      have hdata : (String.mk (pyStrip (collapseWs false (stripTags s.data)))).data =
          pyStrip (collapseWs false (stripTags s.data)) := rfl
      rw [hdata]
      have htf : tagFree (pyStrip (collapseWs false (stripTags s.data))) = true :=
        tagFree_pyStrip _ (tagFree_collapseWs _ false
          (tagFree_subTags s.data.length s.data (Nat.le_refl _)))
      have hwn : wsNormal (pyStrip (collapseWs false (stripTags s.data))) = true :=
        wsNormal_pyStrip _ (wsNormal_collapseWs _ false)
      rw [show stripTags (pyStrip (collapseWs false (stripTags s.data))) =
          subTags (pyStrip (collapseWs false (stripTags s.data))).length
            (pyStrip (collapseWs false (stripTags s.data))) from rfl]
      rw [subTags_id_of_tagFree _ _ htf]
      rw [collapseWs_id_of_wsNormal _ hwn]
      rw [pyStrip_idem]

end AInews
